import Mathlib

/-!
Verification model of the A-Tree boolean-expression matching engine
(`src/lib.rs`, `src/predicates.rs`, `src/predicates/logical_operations.rs`).

The Rust code stores DAG nodes as `Arc<RefCell<NodeType>>`.  We model the
node store as an arena: a `List NodeType` indexed by natural-number
references, with parent and child pointers as index lists.  Machine `u64`
arithmetic is modelled as `Nat` with explicit `% 2^64` at every wrapping
operation.  Recursions that walk the pointer graph (`get_id`, `get_level`)
are given a fuel parameter: the Rust functions diverge on cyclic graphs,
which the model renders as `none`; call sites pass `heap.length`, which is
always sufficient on the acyclic arenas produced by `insert`.  Functions
that can hit a Rust `unwrap` panic return `Option`/`MRes` with the panic
mapped to `none`/`MRes.panicked`.
-/

/-- Wrapping modulus of 64-bit unsigned arithmetic. -/
def U64 : Nat := 18446744073709551616

/-- Rust `enum LogOperation { And, Or }`. -/
inductive LogOperation where
  | And : LogOperation
  | Or : LogOperation
deriving DecidableEq, Repr

/-- Rust `struct LeafNode`: predicate id, parent links, event-scoped result. -/
structure LeafNode where
  predicate_id : Nat
  parents : List Nat
  result : Option Bool
deriving DecidableEq, Repr

/-- Rust `struct InnerNode`: operator, parent and child links, event-scoped operands. -/
structure InnerNode where
  log_operation : LogOperation
  parents : List Nat
  childrens : List Nat
  operands : List (Option Bool)
deriving DecidableEq, Repr

/-- Rust `struct RootNode`: child links, operator, event-scoped operands (no parents). -/
structure RootNode where
  childrens : List Nat
  log_operation : LogOperation
  operands : List (Option Bool)
deriving DecidableEq, Repr

/-- Rust `enum NodeType` with its three variants. -/
inductive NodeType where
  | LeafNodeType : LeafNode → NodeType
  | InnerNodeType : InnerNode → NodeType
  | RootNodeType : RootNode → NodeType
deriving DecidableEq, Repr

/-- The child index list of a node (`get_children`, with `None` for leaves
rendered as the empty list where only iteration matters). -/
def nodeChildren : NodeType → List Nat
  | .LeafNodeType _ => []
  | .InnerNodeType n => n.childrens
  | .RootNodeType n => n.childrens

/-- `Node::get_id` computed on the arena.  `fuel` bounds the recursion depth
(the Rust recursion diverges on cyclic graphs; `none` models that and
dangling references).  The `And` branch is the source's
`fold(0, |a,b| a.overflowing_add(b.get_id()).0)`, the `Or` branch the
`fold(1, ...overflowing_mul...)`; `InnerNode::get_id` and
`RootNode::get_id` have identical bodies in the source. -/
def getId (heap : List NodeType) : Nat → Nat → Option Nat
  | 0, _ => none
  | fuel+1, r =>
    match heap[r]? with
    | none => none
    | some (.LeafNodeType l) => some l.predicate_id
    | some (.InnerNodeType n) =>
      match n.log_operation with
      | .And => n.childrens.foldl (fun acc c =>
          acc.bind fun a => (getId heap fuel c).map fun b => (a + b) % U64) (some 0)
      | .Or => n.childrens.foldl (fun acc c =>
          acc.bind fun a => (getId heap fuel c).map fun b => (a * b) % U64) (some 1)
    | some (.RootNodeType n) =>
      match n.log_operation with
      | .And => n.childrens.foldl (fun acc c =>
          acc.bind fun a => (getId heap fuel c).map fun b => (a + b) % U64) (some 0)
      | .Or => n.childrens.foldl (fun acc c =>
          acc.bind fun a => (getId heap fuel c).map fun b => (a * b) % U64) (some 1)

/-- `Node::get_level` computed on the arena.  A leaf returns `level + 1`;
inner and root nodes fold `max` over `child.get_level(level + 1)` starting
from `0`, exactly as in the source. -/
def getLevel (heap : List NodeType) : Nat → Nat → Nat → Option Nat
  | 0, _, _ => none
  | fuel+1, r, level =>
    match heap[r]? with
    | none => none
    | some (.LeafNodeType _) => some (level + 1)
    | some (.InnerNodeType n) =>
      n.childrens.foldl (fun acc c =>
        acc.bind fun m => (getLevel heap fuel c (level + 1)).map fun l => Nat.max l m) (some 0)
    | some (.RootNodeType n) =>
      n.childrens.foldl (fun acc c =>
        acc.bind fun m => (getLevel heap fuel c (level + 1)).map fun l => Nat.max l m) (some 0)

/-- One step of the `And` fold in `InnerNode::evaluate` / `RootNode::evaluate`
(the six-armed `match` in the loop body, verbatim). -/
def andFoldStep : Option Bool → Option Bool → Option Bool
  | none, some true => none
  | none, some false => some false
  | some true, none => none
  | some false, none => some false
  | some v1, some v2 => some (v1 && v2)
  | none, none => none

/-- One step of the `Or` fold in `InnerNode::evaluate` / `RootNode::evaluate`. -/
def orFoldStep : Option Bool → Option Bool → Option Bool
  | none, some true => some true
  | none, some false => none
  | some true, none => some true
  | some false, none => none
  | some v1, some v2 => some (v1 || v2)
  | none, none => none

/-- `InnerNode::evaluate`.  The source takes the first operand with
`iter.next().unwrap()` — a panic on an empty operand list, modelled by the
outer `none` — then folds the remaining operands through the loop body. -/
def InnerNode.evaluate (n : InnerNode) : Option (Option Bool) :=
  match n.log_operation with
  | .And =>
    match n.operands with
    | [] => none
    | op1 :: rest => some (rest.foldl andFoldStep op1)
  | .Or =>
    match n.operands with
    | [] => none
    | op1 :: rest => some (rest.foldl orFoldStep op1)

/-- `RootNode::evaluate` (same body as `InnerNode::evaluate` in the source). -/
def RootNode.evaluate (n : RootNode) : Option (Option Bool) :=
  match n.log_operation with
  | .And =>
    match n.operands with
    | [] => none
    | op1 :: rest => some (rest.foldl andFoldStep op1)
  | .Or =>
    match n.operands with
    | [] => none
    | op1 :: rest => some (rest.foldl orFoldStep op1)

/-- `Node::evaluate` dispatch; a leaf returns its stored result and cannot
panic. -/
def NodeType.evaluate : NodeType → Option (Option Bool)
  | .LeafNodeType l => some l.result
  | .InnerNodeType n => n.evaluate
  | .RootNodeType n => n.evaluate

/-- `Node::clean`: reset the event-scoped state. -/
def NodeType.clean : NodeType → NodeType
  | .LeafNodeType l => .LeafNodeType { l with result := none }
  | .InnerNodeType n => .InnerNodeType { n with operands := [] }
  | .RootNodeType n => .RootNodeType { n with operands := [] }

/-- `Node::get_parents`: `Some` of the parent list for leaves and inner
nodes, `None` for roots. -/
def NodeType.get_parents : NodeType → Option (List Nat)
  | .LeafNodeType l => some l.parents
  | .InnerNodeType n => some n.parents
  | .RootNodeType _ => none

/-!
A user-built expression subtree handed to `ATree::insert` (the unfolding
of the `Arc` structure the Rust caller assembles with `add_children`).
Children point downward; the tree is finite by construction, as insertion
of user subtrees is in the source.
-/
mutual
inductive ExprTree where
  | leaf : Nat → ExprTree
  | inner : LogOperation → ExprForest → ExprTree
  | root : LogOperation → ExprForest → ExprTree
deriving DecidableEq, Repr
inductive ExprForest where
  | nil : ExprForest
  | cons : ExprTree → ExprForest → ExprForest
deriving DecidableEq, Repr
end

/-- Convert a list of subtrees into a forest. -/
def ExprForest.ofList : List ExprTree → ExprForest
  | [] => .nil
  | t :: rest => .cons t (ExprForest.ofList rest)

/-- Convert a forest back into a list of subtrees. -/
def ExprForest.toList : ExprForest → List ExprTree
  | .nil => []
  | .cons t rest => t :: ExprForest.toList rest

/-!
`Node::get_id` evaluated on a user-built subtree: a leaf returns its
predicate id; `And` nodes fold wrapping addition from 0 over the children
ids, `Or` nodes fold wrapping multiplication from 1 (`InnerNode::get_id`,
`RootNode::get_id`).
-/
mutual
def treeId : ExprTree → Nat
  | .leaf pid => pid
  | .inner op f =>
    match op with
    | .And => treeIdAnd f 0
    | .Or => treeIdOr f 1
  | .root op f =>
    match op with
    | .And => treeIdAnd f 0
    | .Or => treeIdOr f 1
def treeIdAnd : ExprForest → Nat → Nat
  | .nil, a => a
  | .cons c rest, a => treeIdAnd rest ((a + treeId c) % U64)
def treeIdOr : ExprForest → Nat → Nat
  | .nil, a => a
  | .cons c rest, a => treeIdOr rest ((a * treeId c) % U64)
end

/-- Rust `struct PredResult { id: u64, result: Option<bool> }`. -/
structure PredResult where
  id : Nat
  result : Option Bool
deriving DecidableEq, Repr

/-- The interning DAG `struct ATree { hash_to_node: HashMap<u64, ArcNodeLink> }`,
with the arena carried alongside the id-to-reference table.  The `HashMap`
is modelled as an association list with replace-on-insert semantics. -/
structure ATree where
  heap : List NodeType
  hash_to_node : List (Nat × Nat)
deriving DecidableEq, Repr

/-- `ATree::new`. -/
def ATree.new : ATree := ⟨[], []⟩

/-- `HashMap::get`. -/
def hmLookup : List (Nat × Nat) → Nat → Option Nat
  | [], _ => none
  | (k, v) :: rest, k' => if k = k' then some v else hmLookup rest k'

/-- `HashMap::insert`: replace the binding if the key is present, add it
otherwise. -/
def hmInsert : List (Nat × Nat) → Nat → Nat → List (Nat × Nat)
  | [], k, v => [(k, v)]
  | (k', v') :: rest, k, v =>
    if k' = k then (k, v) :: rest else (k', v') :: hmInsert rest k v

/-- `ATree::len` = `HashMap::len` (keys are unique by `hmInsert`). -/
def ATree.len (t : ATree) : Nat := t.hash_to_node.length

/-- `Node::add_parent` applied at arena index `c` with new parent `p`:
leaves and inner nodes push the parent, `RootNode::add_parent` is a no-op. -/
def addParentLink (heap : List NodeType) (c p : Nat) : List NodeType :=
  match heap[c]? with
  | some (.LeafNodeType l) => heap.set c (.LeafNodeType { l with parents := l.parents ++ [p] })
  | some (.InnerNodeType n) => heap.set c (.InnerNodeType { n with parents := n.parents ++ [p] })
  | some (.RootNodeType _) => heap
  | none => heap

/-- `Node::add_children` applied at arena index `p` with new child `c`:
inner and root nodes push the child, `LeafNode::add_children` is a no-op. -/
def addChildLink (heap : List NodeType) (p c : Nat) : List NodeType :=
  match heap[p]? with
  | some (.LeafNodeType _) => heap
  | some (.InnerNodeType n) => heap.set p (.InnerNodeType { n with childrens := n.childrens ++ [c] })
  | some (.RootNodeType n) => heap.set p (.RootNodeType { n with childrens := n.childrens ++ [c] })
  | none => heap

/-- The free function `add_children(node, children)` iterated over the
collected canonical children inside `create_new_node`: each step links the
parent into the child and the child into the parent. -/
def wireChildren (heap : List NodeType) (p : Nat) : List Nat → List NodeType
  | [] => heap
  | c :: rest => wireChildren (addChildLink (addParentLink heap c p) p c) p rest

/-- `ATree::create_new_node`: allocate a fresh node of the same variant and
operator (with empty event state and no links) and wire the canonical
children into it.  Returns the updated arena and the new reference. -/
def createNewNode (heap : List NodeType) (x : ExprTree) (childRefs : List Nat) :
    List NodeType × Nat :=
  let newRef := heap.length
  match x with
  | .leaf pid => (wireChildren (heap ++ [.LeafNodeType ⟨pid, [], none⟩]) newRef childRefs, newRef)
  | .inner op _ => (wireChildren (heap ++ [.InnerNodeType ⟨op, [], [], []⟩]) newRef childRefs, newRef)
  | .root op _ => (wireChildren (heap ++ [.RootNodeType ⟨[], op, []⟩]) newRef childRefs, newRef)

/-- The tail of `ATree::insert`'s miss branch:
`hash_to_node.insert(new_node.get_id(), new_node)` followed by returning
the new node.  The id of the freshly created node is recomputed on the
arena, as `new_node.borrow().get_id()` is in the source. -/
def finishInsert (table : List (Nat × Nat)) (heap₂ : List NodeType) (newRef : Nat) :
    Option (ATree × Nat) :=
  match getId heap₂ heap₂.length newRef with
  | none => none
  | some nid => some (⟨heap₂, hmInsert table nid newRef⟩, newRef)

/-!
`ATree::insert`: compute the id of the incoming subtree, short-circuit on
a table hit, otherwise recursively intern the children, allocate the
canonical copy and register it under its id.  `insertForest` is the
`for children in childrens { child_nodes.push(self.insert(children)) }`
loop.
-/
mutual
def insertTree (t : ATree) : ExprTree → Option (ATree × Nat)
  | .leaf pid =>
    match hmLookup t.hash_to_node (treeId (.leaf pid)) with
    | some r => some (t, r)
    | none =>
      let p := createNewNode t.heap (.leaf pid) []
      finishInsert t.hash_to_node p.1 p.2
  | .inner op f =>
    match hmLookup t.hash_to_node (treeId (.inner op f)) with
    | some r => some (t, r)
    | none =>
      match insertForest t f with
      | none => none
      | some (t₁, rs) =>
        let p := createNewNode t₁.heap (.inner op f) rs
        finishInsert t₁.hash_to_node p.1 p.2
  | .root op f =>
    match hmLookup t.hash_to_node (treeId (.root op f)) with
    | some r => some (t, r)
    | none =>
      match insertForest t f with
      | none => none
      | some (t₁, rs) =>
        let p := createNewNode t₁.heap (.root op f) rs
        finishInsert t₁.hash_to_node p.1 p.2
def insertForest (t : ATree) : ExprForest → Option (ATree × List Nat)
  | .nil => some (t, [])
  | .cons c rest =>
    match insertTree t c with
    | none => none
    | some (t₁, r) =>
      match insertForest t₁ rest with
      | none => none
      | some (t₂, rs) => some (t₂, r :: rs)
end

/-- The fold inside `ATree::get_m`: `max = node.get_level(0).max(max)` over
all table entries. -/
def getMFold (heap : List NodeType) : List (Nat × Nat) → Nat → Option Nat
  | [], acc => some acc
  | (_, r) :: rest, acc =>
    match getLevel heap heap.length r 0 with
    | none => none
    | some m => getMFold heap rest (Nat.max m acc)

/-- `ATree::get_m`. -/
def ATree.get_m (t : ATree) : Option Nat := getMFold t.heap t.hash_to_node 0

/-- Outcome of a `matches` call: normal return, a Rust panic (a failed
`unwrap`, or divergence of a graph recursion), or exhaustion of the
modelling fuel that bounds the drain loops. -/
inductive MRes (α : Type) where
  | ok : α → MRes α
  | panicked : MRes α
  | fuelOut : MRes α
deriving DecidableEq, Repr

/-- `HashMap::get` on the level-indexed queue map. -/
def qFind : List (Nat × List Nat) → Nat → Option (List Nat)
  | [], _ => none
  | (k, v) :: rest, k' => if k = k' then some v else qFind rest k'

/-- Replace the queue stored under a level (used only after a successful
`qFind`, mirroring `get_mut`). -/
def qSet : List (Nat × List Nat) → Nat → List Nat → List (Nat × List Nat)
  | [], _, _ => []
  | (k, v) :: rest, k', dq => if k = k' then (k', dq) :: rest else (k, v) :: qSet rest k' dq

/-- The queue-creation loop `for i in (1..m) { queues.insert(i, VecDeque::new()) }`:
note the exclusive upper bound, so levels `1` to `m - 1`. -/
def initQueues (m : Nat) : List (Nat × List Nat) :=
  (List.range' 1 (m - 1)).map fun i => (i, [])

/-- The seeding write `if let LeafNodeType(node) = ... { node.result = predicate.result }`:
only a leaf stores the incoming outcome. -/
def setLeafResult (heap : List NodeType) (r : Nat) (res : Option Bool) : List NodeType :=
  match heap[r]? with
  | some (.LeafNodeType l) => heap.set r (.LeafNodeType { l with result := res })
  | _ => heap

/-- The seeding loop of `ATree::matches`: for every input whose id is in the
table, store the outcome if the node is a leaf, then push the node onto
queue 1 unconditionally via `queues.get_mut(&1).unwrap()` — `none` models
that unwrap panicking when no level-1 queue exists. -/
def seedPreds (table : List (Nat × Nat)) :
    List NodeType → List (Nat × List Nat) → List PredResult →
    Option (List NodeType × List (Nat × List Nat))
  | heap, queues, [] => some (heap, queues)
  | heap, queues, p :: rest =>
    match hmLookup table p.id with
    | none => seedPreds table heap queues rest
    | some r =>
      let heap' := setLeafResult heap r p.result
      match qFind queues 1 with
      | none => none
      | some dq => seedPreds table heap' (qSet queues 1 (r :: dq)) rest

/-- `node.borrow().evaluate()` for the node at a reference. -/
def evaluateAt (heap : List NodeType) (r : Nat) : Option (Option Bool) :=
  match heap[r]? with
  | none => none
  | some nd => nd.evaluate

/-- `node.borrow_mut().clean()` at a reference. -/
def cleanAt (heap : List NodeType) (r : Nat) : List NodeType :=
  match heap[r]? with
  | none => heap
  | some nd => heap.set r nd.clean

/-- `node.borrow_mut().get_parents()` at a reference. -/
def getParentsAt (heap : List NodeType) (r : Nat) : Option (List Nat) :=
  match heap[r]? with
  | none => none
  | some nd => nd.get_parents

/-- The parent loop of the drain phase: per parent, if its operand list is
empty, compute `p.get_level(1)` and push it onto that level's queue via
`queues.get_mut(&level).unwrap()` (a missing level is the unwrap panic,
`none`); then push the child's result onto `p.operands`.  The `_ => {}` arm
skips leaf parents. -/
def processParents (result : Option Bool) :
    List NodeType → List (Nat × List Nat) → List Nat →
    Option (List NodeType × List (Nat × List Nat))
  | heap, queues, [] => some (heap, queues)
  | heap, queues, p :: rest =>
    match heap[p]? with
    | some (.InnerNodeType pn) =>
      if pn.operands.isEmpty then
        match getLevel heap heap.length p 1 with
        | none => none
        | some level =>
          match qFind queues level with
          | none => none
          | some dq =>
            processParents result
              (heap.set p (.InnerNodeType { pn with operands := pn.operands ++ [result] }))
              (qSet queues level (p :: dq)) rest
      else
        processParents result
          (heap.set p (.InnerNodeType { pn with operands := pn.operands ++ [result] }))
          queues rest
    | some (.RootNodeType pn) =>
      if pn.operands.isEmpty then
        match getLevel heap heap.length p 1 with
        | none => none
        | some level =>
          match qFind queues level with
          | none => none
          | some dq =>
            processParents result
              (heap.set p (.RootNodeType { pn with operands := pn.operands ++ [result] }))
              (qSet queues level (p :: dq)) rest
      else
        processParents result
          (heap.set p (.RootNodeType { pn with operands := pn.operands ++ [result] }))
          queues rest
    | _ => processParents result heap queues rest

/-- The `while let Some(node) = queues.get_mut(&x).unwrap().pop_front()`
loop of `ATree::matches` for one level `x`: evaluate, clean, skip on an
undetermined result, distribute the result to the parents, and record the
node's id when the result is `Some(true)` — note the source places that
recording inside `if let Some(parents) = ...`, so a root (whose
`get_parents` is `None`) is never recorded.  `fuel` bounds the number of
pops. -/
def drainLevel (x : Nat) :
    Nat → List NodeType → List (Nat × List Nat) → List Nat →
    MRes (List NodeType × List (Nat × List Nat) × List Nat)
  | fuel, heap, queues, matching =>
    match qFind queues x with
    | none => .panicked
    | some [] => .ok (heap, queues, matching)
    | some (r :: dq) =>
      match fuel with
      | 0 => .fuelOut
      | fuel+1 =>
        let queues₁ := qSet queues x dq
        match evaluateAt heap r with
        | none => .panicked
        | some result =>
          let heap₁ := cleanAt heap r
          if result = none then drainLevel x fuel heap₁ queues₁ matching
          else
            match getParentsAt heap₁ r with
            | none => drainLevel x fuel heap₁ queues₁ matching
            | some ps =>
              match processParents result heap₁ queues₁ ps with
              | none => .panicked
              | some (heap₂, queues₂) =>
                if result = some true then
                  match getId heap₂ heap₂.length r with
                  | none => .panicked
                  | some nid => drainLevel x fuel heap₂ queues₂ (matching ++ [nid])
                else drainLevel x fuel heap₂ queues₂ matching

/-- The outer drain loop `for x in (1..m)` of `ATree::matches`. -/
def drainAll (fuel : Nat) :
    List NodeType → List (Nat × List Nat) → List Nat → List Nat → MRes (List Nat)
  | _, _, matching, [] => .ok matching
  | heap, queues, matching, x :: xs =>
    match drainLevel x fuel heap queues matching with
    | .panicked => .panicked
    | .fuelOut => .fuelOut
    | .ok (heap', queues', matching') => drainAll fuel heap' queues' matching' xs

/-- `ATree::matches`: compute `M`, create queues for levels `1..M`
(exclusive), seed the inputs, then drain levels `1..M` (exclusive) and
return the collected ids. -/
def ATree.matches (t : ATree) (predicates : List PredResult) (fuel : Nat) : MRes (List Nat) :=
  match t.get_m with
  | none => .panicked
  | some m =>
    let queues := initQueues m
    match seedPreds t.hash_to_node t.heap queues predicates with
    | none => .panicked
    | some (heap₁, queues₁) => drainAll fuel heap₁ queues₁ [] (List.range' 1 (m - 1))

/-!
Predicate module (`src/predicates.rs`).  The claims about it concern only
the 64-bit `id()` values produced through `DefaultHasher`.  The hasher is
modelled by the ordered stream of tokens written to it — exactly what the
source feeds to SipHash — and `finish` by a fixed executable mixing
function standing in for the SipHash compression.  Every property proved
below depends only on equality or inequality of the written streams, never
on the particular mixing function.
-/

/-- Rust `enum Value` (`Int`/`Double`/`String`/`Bool`).  The `Double`
payload is represented by the decimal rendering of the float, which is the
only content `Double`'s `Hash` implementation feeds to the hasher
(`self.0.to_string().hash(state)`). -/
inductive Value where
  | int : Int → Value
  | double : String → Value
  | str : String → Value
  | bool : Bool → Value
deriving DecidableEq, Repr

/-- A single value written to the hasher: an enum discriminant or a
payload. -/
inductive HToken where
  | disc : Nat → HToken
  | intTok : Int → HToken
  | strTok : String → HToken
  | boolTok : Bool → HToken
deriving DecidableEq, Repr

/-- `std::hash::DefaultHasher`, modelled by its write stream. -/
abbrev DefaultHasher : Type := List HToken

/-- `DefaultHasher::new()`. -/
def hasherNew : DefaultHasher := []

/-- `Value::hash` (derived): write the variant discriminant, then the
payload; `Double` writes the decimal string of its float. -/
def hashValue (h : DefaultHasher) : Value → DefaultHasher
  | .int i => List.append h [.disc 0, .intTok i]
  | .double s => List.append h [.disc 1, .strTok s]
  | .str s => List.append h [.disc 2, .strTok s]
  | .bool b => List.append h [.disc 3, .boolTok b]

/-- Rust `enum EqOperation { Equal, NotEqual }`. -/
inductive EqOperation where
  | Equal : EqOperation
  | NotEqual : EqOperation
deriving DecidableEq, Repr

/-- Rust `enum OrdOperation { Greater, GreaterEqual, LessEqual, Less }`. -/
inductive OrdOperation where
  | Greater : OrdOperation
  | GreaterEqual : OrdOperation
  | LessEqual : OrdOperation
  | Less : OrdOperation
deriving DecidableEq, Repr

/-- Rust `enum SetOperation { ElementOf, NotElementOf }`. -/
inductive SetOperation where
  | ElementOf : SetOperation
  | NotElementOf : SetOperation
deriving DecidableEq, Repr

/-- `EqOperation::hash` (derived): write the variant discriminant. -/
def hashEqOperation (h : DefaultHasher) : EqOperation → DefaultHasher
  | .Equal => List.append h [.disc 0]
  | .NotEqual => List.append h [.disc 1]

/-- `OrdOperation::hash` (derived): write the variant discriminant. -/
def hashOrdOperation (h : DefaultHasher) : OrdOperation → DefaultHasher
  | .Greater => List.append h [.disc 0]
  | .GreaterEqual => List.append h [.disc 1]
  | .LessEqual => List.append h [.disc 2]
  | .Less => List.append h [.disc 3]

/-- Numeric code of one token, used only by the stand-in `finish`. -/
def tokenCode : HToken → Nat
  | .disc n => 4 * n
  | .intTok i => 4 * i.natAbs + 1
  | .strTok s => 4 * s.length + 2
  | .boolTok b => 4 * (cond b 1 0) + 3

/-- `DefaultHasher::finish`: a fixed deterministic mixing of the write
stream (stand-in for SipHash; only stream equality matters to the claims). -/
def finish (h : DefaultHasher) : Nat :=
  h.foldl (fun a t => (a * 1099511628211 + tokenCode t) % U64) 14695981039346656037

/-- Rust `struct EqualPredicate { constant, operation }`. -/
structure EqualPredicate where
  constant : Value
  operation : EqOperation
deriving DecidableEq, Repr

/-- `EqualPredicate::id`: hash the constant, then the operation, then
finish. -/
def EqualPredicate.id (p : EqualPredicate) : Nat :=
  finish (hashEqOperation (hashValue hasherNew p.constant) p.operation)

/-- Rust `struct OrdPredicate { constant, operation }`. -/
structure OrdPredicate where
  constant : Value
  operation : OrdOperation
deriving DecidableEq, Repr

/-- `OrdPredicate::id`: hash the constant, then the operation, then finish. -/
def OrdPredicate.id (p : OrdPredicate) : Nat :=
  finish (hashOrdOperation (hashValue hasherNew p.constant) p.operation)

/-- Rust `struct SetPredicate { constants, operation }`. -/
structure SetPredicate where
  constants : List Value
  operation : SetOperation
deriving DecidableEq, Repr

/-- `SetPredicate::id`: the source hashes only the constants
(`for constant in &self.constants { constant.hash(&mut h) }`) and never
touches `self.operation`. -/
def SetPredicate.id (p : SetPredicate) : Nat :=
  finish (p.constants.foldl hashValue hasherNew)

/-- Rust `struct BetweenPredicate { start_constant, end_constant }`. -/
structure BetweenPredicate where
  start_constant : Value
  end_constant : Value
deriving DecidableEq, Repr

/-- `BetweenPredicate::id`: hash the two bounds, then finish. -/
def BetweenPredicate.id (p : BetweenPredicate) : Nat :=
  finish (hashValue (hashValue hasherNew p.start_constant) p.end_constant)

/-- Free constructor `equal(value)`. -/
def equal (value : Value) : EqualPredicate := ⟨value, .Equal⟩

/-- Free constructor `not_equal(value)`. -/
def not_equal (value : Value) : EqualPredicate := ⟨value, .NotEqual⟩

/-- Free constructor `greater(value)`. -/
def greater (value : Value) : OrdPredicate := ⟨value, .Greater⟩

/-- Free constructor `less(value)`. -/
def less (value : Value) : OrdPredicate := ⟨value, .Less⟩

/-- Free constructor `element_of(values)`. -/
def element_of (values : List Value) : SetPredicate := ⟨values, .ElementOf⟩

/-- Free constructor `not_element_of(values)`. -/
def not_element_of (values : List Value) : SetPredicate := ⟨values, .NotElementOf⟩

/-!
Specification-side definitions.  `specKleeneAnd`/`specKleeneOr` transcribe
the three-valued truth tables of spec §4.4.1 word for word; claim C4
compares the source's fold steps against them.
-/

/-- The spec's And table: `(T,T)→T`, any determined `F` forces `F`
(including `(⊥,F)` and `(F,⊥)`), every other combination with `⊥` is `⊥`. -/
def specKleeneAnd : Option Bool → Option Bool → Option Bool
  | some true, some true => some true
  | some true, some false => some false
  | some false, _ => some false
  | _, some false => some false
  | _, _ => none

/-- The spec's Or table: any determined `T` forces `T`, `(F,F)→F`, every
other combination with `⊥` is `⊥`. -/
def specKleeneOr : Option Bool → Option Bool → Option Bool
  | some false, some false => some false
  | some true, _ => some true
  | _, some true => some true
  | _, _ => none

/-!
Concrete scenarios used by the claims.  `scenarioETree` is spec scenario E
(a `Root(And)` over an `Inner(And)` over two predicate leaves; the leaf
ids stand for `id(eq(Int 10))` and `id(gt(Int 5))`).  `chainTree` is spec
scenario A (`Leaf(1) → Inner(And) → Root(And)`).  `flatTree` is a
`Root(And)` directly over leaves 1 and 2, whose root id 3 is a table key
that resolves to a non-leaf node.
-/

/-- Scenario E subtree. -/
def scenarioETree : ExprTree :=
  .root .And (.cons (.inner .And (.cons (.leaf 10) (.cons (.leaf 5) .nil))) .nil)

/-- The ATree obtained by inserting scenario E into a fresh tree. -/
def scenarioEATree : ATree :=
  ((insertTree ATree.new scenarioETree).map Prod.fst).getD ATree.new

/-- Scenario A subtree: the chain `Leaf(1) → Inner(And) → Root(And)`. -/
def chainTree : ExprTree :=
  .root .And (.cons (.inner .And (.cons (.leaf 1) .nil)) .nil)

/-- The ATree obtained by inserting the chain into a fresh tree. -/
def chainATree : ATree :=
  ((insertTree ATree.new chainTree).map Prod.fst).getD ATree.new

/-- A `Root(And)` directly over `Leaf(1)` and `Leaf(2)`; its id is 3. -/
def flatTree : ExprTree := .root .And (.cons (.leaf 1) (.cons (.leaf 2) .nil))

/-- The ATree obtained by inserting `flatTree` into a fresh tree. -/
def flatATree : ATree :=
  ((insertTree ATree.new flatTree).map Prod.fst).getD ATree.new

/-- An ATree whose table holds only a leaf (maximum level `M = 1`). -/
def leafOnlyATree : ATree :=
  ((insertTree ATree.new (.leaf 5)).map Prod.fst).getD ATree.new

/-!
Claim theorems.  Each theorem settles one claim of the specification
against the model above.
-/

/-- C1: the claim says that for the scenario-E tree (Root(And) over
Inner(And) over the two predicate leaves) the inputs
`[{id(eq), Some true}, {id(gt), Some true}]` produce an output containing
the root's id.  In fact the code panics: the leaf's parent is enqueued at
`get_level(1) = 3`, but queues exist only for levels `1..M` exclusive,
i.e. `{1, 2}`, so the `unwrap` fails on the first propagation step (and
the id-recording line is guarded by `get_parents()` returning `Some`,
which is never true of a root).  This theorem evaluates the model at the
failing input: the build succeeds (`len = 3`, `M = 3`) and `matches`
panics for every positive fuel. -/
theorem c1_scenarioE_matches_panics :
    scenarioEATree.len = 3 ∧ scenarioEATree.get_m = some 3 ∧
    ∀ fuel : Nat,
      scenarioEATree.matches [⟨10, some true⟩, ⟨5, some true⟩] (fuel + 1) = .panicked :=
  ⟨by decide, by decide, fun _ => rfl⟩

/-- C2: the claim says `matches` runs to completion without panic on any
tree built only via `new` and `insert`.  It does not: on the scenario-E
tree (built exactly that way) a single determinate predicate outcome makes
the propagation step look up queue level 3, which was never created, and
the `unwrap` panics. -/
theorem c2_matches_panics_without_misuse :
    scenarioEATree.get_m = some 3 ∧
    ∀ fuel : Nat, scenarioEATree.matches [⟨10, some true⟩] (fuel + 1) = .panicked :=
  ⟨by decide, fun _ => rfl⟩

/-- C3 counterexample: inserting the chain `Leaf(1) → Inner(And) → Root(And)`
into a fresh ATree does not give `len() = 3`.  All three chain nodes have
id 1 (`And` of a single child is `0 + child_id`), so inner and root
successively replace the leaf under table key 1 and `len() = 1` — as the
repository's own test `insert_three_nodes` asserts. -/
theorem c3_chain_len_counterexample : chainATree.len ≠ 3 := by decide

/-- C3 amended: inserting the chain `Leaf(1) → Inner(And) → Root(And)` into
a fresh ATree yields `len() = 1` (the three nodes share id 1, so each
insertion replaces the previous binding under key 1, leaving only the
root) and maximum level `M = 3`. -/
theorem c3_chain_len_one_m_three :
    insertTree ATree.new chainTree = some (chainATree, 2) ∧
    chainATree.len = 1 ∧ chainATree.get_m = some 3 := by
  refine ⟨by decide, by decide, by decide⟩

/-- C4: for every Inner or Root node with a non-empty operand list,
`evaluate()` is the left fold of the operands under the Kleene
three-valued tables of the spec (`specKleeneAnd`/`specKleeneOr` transcribe
those tables; the first two conjuncts show the source's loop steps agree
with them on all nine input pairs, including `(⊥,F) → F`, `(F,⊥) → F`,
`(T,⊥) → ⊥` for And and their Or mirrors). -/
theorem c4_evaluate_kleene_fold :
    (∀ a b, andFoldStep a b = specKleeneAnd a b) ∧
    (∀ a b, orFoldStep a b = specKleeneOr a b) ∧
    (∀ ps cs op1 rest,
      InnerNode.evaluate ⟨.And, ps, cs, op1 :: rest⟩ = some (rest.foldl specKleeneAnd op1)) ∧
    (∀ ps cs op1 rest,
      InnerNode.evaluate ⟨.Or, ps, cs, op1 :: rest⟩ = some (rest.foldl specKleeneOr op1)) ∧
    (∀ cs op1 rest,
      RootNode.evaluate ⟨cs, .And, op1 :: rest⟩ = some (rest.foldl specKleeneAnd op1)) ∧
    (∀ cs op1 rest,
      RootNode.evaluate ⟨cs, .Or, op1 :: rest⟩ = some (rest.foldl specKleeneOr op1)) := by
  have hA : andFoldStep = specKleeneAnd := by
    funext a b
    revert a b
    decide
  have hO : orFoldStep = specKleeneOr := by
    funext a b
    revert a b
    decide
  refine ⟨fun a b => by rw [hA], fun a b => by rw [hO], ?_, ?_, ?_, ?_⟩ <;>
    intros <;> simp [InnerNode.evaluate, RootNode.evaluate, hA, hO]

/-- C7 counterexample: `element_of(S)` and `not_element_of(S)` carry
distinct operator tags yet have equal ids at `S = [Int 10]`, because
`SetPredicate::id` hashes only the constant list and never the operation —
so the claim that each set predicate's id is derived from its distinct
operator tag is false. -/
theorem c7_set_id_ignores_operator_counterexample :
    SetPredicate.id (element_of [.int 10]) = SetPredicate.id (not_element_of [.int 10]) ∧
    (element_of [.int 10]).operation ≠ (not_element_of [.int 10]).operation :=
  ⟨rfl, by decide⟩

/-- C7 amended: predicate ids are deterministic functions of the hashed
fields; `EqualPredicate` and `OrdPredicate` write the operator tag into
the hash stream (so streams for distinct operators differ), but
`SetPredicate::id` hashes only its constant list, so its id is independent
of the operator and `element_of(S)` and `not_element_of(S)` collide for
every `S`. -/
theorem c7_amended_operator_tag_in_hash :
    (∀ (S : List Value) (op1 op2 : SetOperation),
      SetPredicate.id ⟨S, op1⟩ = SetPredicate.id ⟨S, op2⟩) ∧
    (∀ v : Value,
      hashEqOperation (hashValue hasherNew v) .Equal ≠
        hashEqOperation (hashValue hasherNew v) .NotEqual) ∧
    (∀ (v : Value) (o1 o2 : OrdOperation), o1 ≠ o2 →
      hashOrdOperation (hashValue hasherNew v) o1 ≠
        hashOrdOperation (hashValue hasherNew v) o2) ∧
    (∀ p q : EqualPredicate,
      p.constant = q.constant → p.operation = q.operation → p.id = q.id) := by
  refine ⟨fun S op1 op2 => rfl, ?_, ?_, ?_⟩
  · intro v heq
    simp [hashEqOperation, List.append_cancel_left_eq] at heq
  · intro v o1 o2 hne heq
    cases o1 <;> cases o2 <;> simp_all [hashOrdOperation, List.append_cancel_left_eq]
  · intro p q h1 h2
    cases p
    cases q
    simp_all [EqualPredicate.id]

/-- C7 witness for the amended theorem: at `v = Int 0` the hash streams of
`Greater` and `Less` differ. -/
theorem c7_amended_operator_tag_in_hash_witness :
    hashOrdOperation (hashValue hasherNew (.int 0)) .Greater ≠
      hashOrdOperation (hashValue hasherNew (.int 0)) .Less :=
  c7_amended_operator_tag_in_hash.2.2.1 (.int 0) .Greater .Less (by decide)

/-- C8: the claim says a `PredResult` whose id is found in the table but
resolves to a non-leaf node is ignored (not enqueued, no state, no
output).  In the code the push onto queue 1 sits outside the leaf check,
so the node is enqueued; when popped, `evaluate()` on its empty operand
list panics at `iter.next().unwrap()`.  Here id 3 resolves to the Root of
`flatATree` and `matches` panics for every positive fuel. -/
theorem c8_nonleaf_seed_enqueued_panics :
    hmLookup flatATree.hash_to_node 3 = some 2 ∧
    flatATree.heap[2]? = some (.RootNodeType ⟨[0, 1], .And, []⟩) ∧
    ∀ fuel : Nat, flatATree.matches [⟨3, some true⟩] (fuel + 1) = .panicked :=
  ⟨by decide, by decide, fun _ => rfl⟩

/-- Unfold the `And` id fold over a forest built from a list. -/
theorem treeIdAnd_ofList (l : List ExprTree) (a : Nat) :
    treeIdAnd (ExprForest.ofList l) a = l.foldl (fun x c => (x + treeId c) % U64) a := by
  induction l generalizing a with
  | nil => rfl
  | cons c rest ih => simp only [ExprForest.ofList, treeIdAnd, List.foldl_cons, ih]

/-- Unfold the `Or` id fold over a forest built from a list. -/
theorem treeIdOr_ofList (l : List ExprTree) (a : Nat) :
    treeIdOr (ExprForest.ofList l) a = l.foldl (fun x c => (x * treeId c) % U64) a := by
  induction l generalizing a with
  | nil => rfl
  | cons c rest ih => simp only [ExprForest.ofList, treeIdOr, List.foldl_cons, ih]

/-- Wrapping addition of child ids is invariant under permutation. -/
theorem foldlIdAnd_perm (l l' : List ExprTree) (h : l.Perm l') (a : Nat) :
    l.foldl (fun x c => (x + treeId c) % U64) a =
      l'.foldl (fun x c => (x + treeId c) % U64) a := by
  refine h.foldl_eq' ?_ a
  intro x _ y _ z
  simp only [Nat.mod_add_mod]
  congr 1
  omega

/-- Wrapping multiplication of child ids is invariant under permutation. -/
theorem foldlIdOr_perm (l l' : List ExprTree) (h : l.Perm l') (a : Nat) :
    l.foldl (fun x c => (x * treeId c) % U64) a =
      l'.foldl (fun x c => (x * treeId c) % U64) a := by
  refine h.foldl_eq' ?_ a
  intro x _ y _ z
  have key : ∀ u v : Nat, (u % U64 * v) % U64 = (u * v) % U64 := by
    intro u v
    rw [Nat.mul_comm (u % U64) v, Nat.mul_mod_mod, Nat.mul_comm]
  rw [key, key]
  congr 1
  ring

/-- C6: permuting the children of an Inner or Root node leaves `get_id()`
unchanged: the `And` id folds wrapping addition from 0 and the `Or` id
folds wrapping multiplication from 1 over the children ids, and both folds
are permutation-invariant on 64-bit integers. -/
theorem c6_get_id_perm_invariant :
    ∀ (op : LogOperation) (l l' : List ExprTree), l.Perm l' →
      treeId (.inner op (ExprForest.ofList l)) = treeId (.inner op (ExprForest.ofList l')) ∧
      treeId (.root op (ExprForest.ofList l)) = treeId (.root op (ExprForest.ofList l')) := by
  intro op l l' h
  cases op <;> simp only [treeId, treeIdAnd_ofList, treeIdOr_ofList] <;>
    exact ⟨by first
      | exact foldlIdAnd_perm l l' h 0
      | exact foldlIdOr_perm l l' h 1, by first
      | exact foldlIdAnd_perm l l' h 0
      | exact foldlIdOr_perm l l' h 1⟩

/-- C6 witness: swapping the two leaves under an `And` node keeps the id. -/
theorem c6_get_id_perm_invariant_witness :
    treeId (.inner .And (ExprForest.ofList [.leaf 1, .leaf 2])) =
      treeId (.inner .And (ExprForest.ofList [.leaf 2, .leaf 1])) ∧
    treeId (.root .Or (ExprForest.ofList [.leaf 1, .leaf 2])) =
      treeId (.root .Or (ExprForest.ofList [.leaf 2, .leaf 1])) :=
  ⟨(c6_get_id_perm_invariant .And [.leaf 1, .leaf 2] [.leaf 2, .leaf 1]
      (List.Perm.swap (ExprTree.leaf 2) (ExprTree.leaf 1) [])).1,
   (c6_get_id_perm_invariant .Or [.leaf 1, .leaf 2] [.leaf 2, .leaf 1]
      (List.Perm.swap (ExprTree.leaf 2) (ExprTree.leaf 1) [])).2⟩

/-- If no level-1 queue exists, seeding panics at the first input whose id
is found in the table. -/
theorem seedPreds_no_level1 (table : List (Nat × Nat)) :
    ∀ (preds : List PredResult) (heap : List NodeType),
      (∃ p ∈ preds, (hmLookup table p.id).isSome) →
      seedPreds table heap [] preds = none := by
  intro preds
  induction preds with
  | nil => intro heap h; simp at h
  | cons p rest ih =>
    intro heap h
    cases hl : hmLookup table p.id with
    | some r => simp [seedPreds, hl, qFind]
    | none =>
      obtain ⟨q, hq, hs⟩ := h
      rcases List.mem_cons.mp hq with rfl | hq'
      · rw [hl] at hs
        simp at hs
      · simp only [seedPreds, hl]
        exact ih _ ⟨q, hq', hs⟩

/-- C10: on an ATree whose maximum level `M` is 1 (e.g. a table holding
only leaves), `matches` panics during seeding whenever at least one input
id is present in the table: queues are created by `for i in (1..M)`, so
for `M = 1` no queue exists at all and `queues.get_mut(&1).unwrap()`
fails. -/
theorem c10_leaf_only_matches_panics :
    ∀ (t : ATree) (preds : List PredResult) (fuel : Nat) (p : PredResult),
      t.get_m = some 1 → p ∈ preds → (hmLookup t.hash_to_node p.id).isSome →
      t.matches preds fuel = .panicked := by
  intro t preds fuel p hm hp hs
  have hseed : seedPreds t.hash_to_node t.heap (initQueues 1) preds = none := by
    have : initQueues 1 = [] := rfl
    rw [this]
    exact seedPreds_no_level1 t.hash_to_node preds t.heap ⟨p, hp, hs⟩
  simp only [ATree.matches, hm, hseed]

/-- C10 witness: the single-leaf ATree has `M = 1`, the input id 5 is in
its table, and `matches` panics. -/
theorem c10_leaf_only_matches_panics_witness :
    leafOnlyATree.get_m = some 1 ∧
    (hmLookup leafOnlyATree.hash_to_node (5 : Nat)).isSome ∧
    leafOnlyATree.matches [⟨5, some true⟩] 7 = .panicked :=
  ⟨by decide, by decide,
    c10_leaf_only_matches_panics leafOnlyATree [⟨5, some true⟩] 7 ⟨5, some true⟩
      (by decide) (by decide) (by decide)⟩

/-!
Infrastructure for the insertion invariants (claims C5 and C9).  `getId`
reads only a node's variant, operator, predicate id and child list — its
"shape" — never parent links or event-scoped state, so heap updates that
preserve shapes below an index preserve `getId` there.
-/

/-- The data `get_id` depends on. -/
inductive NodeShape where
  | leafS : Nat → NodeShape
  | innerS : LogOperation → List Nat → NodeShape
  | rootS : LogOperation → List Nat → NodeShape
deriving DecidableEq, Repr

/-- Project a node to its shape. -/
def shapeOf : NodeType → NodeShape
  | .LeafNodeType l => .leafS l.predicate_id
  | .InnerNodeType n => .innerS n.log_operation n.childrens
  | .RootNodeType n => .rootS n.log_operation n.childrens

/-- Equal shapes have equal child lists. -/
theorem nodeChildren_of_shape {nd nd' : NodeType} (h : shapeOf nd = shapeOf nd') :
    nodeChildren nd = nodeChildren nd' := by
  cases nd <;> cases nd' <;> simp_all [shapeOf, nodeChildren]

/-- Arena well-formedness: every node's children sit strictly below it.
`insert` builds arenas bottom-up, so this holds for every reachable ATree. -/
def heapWF (heap : List NodeType) : Prop :=
  ∀ i nd, heap[i]? = some nd → ∀ c ∈ nodeChildren nd, c < i

/-- An optional fold over children collapses to `none` from a `none`
accumulator. -/
theorem optFoldl_none (f : Nat → Option Nat) (comb : Nat → Nat → Nat) (cs : List Nat) :
    cs.foldl (fun acc c => acc.bind fun a => (f c).map fun b => comb a b) none = none := by
  induction cs with
  | nil => rfl
  | cons c rest ih => simpa using ih

/-- Congruence for the optional child fold. -/
theorem optFoldl_congr (f g : Nat → Option Nat) (comb : Nat → Nat → Nat) (cs : List Nat)
    (h : ∀ c ∈ cs, f c = g c) :
    ∀ acc : Option Nat,
      cs.foldl (fun acc c => acc.bind fun a => (f c).map fun b => comb a b) acc =
        cs.foldl (fun acc c => acc.bind fun a => (g c).map fun b => comb a b) acc := by
  induction cs with
  | nil => intro acc; rfl
  | cons c rest ih =>
    intro acc
    simp only [List.foldl_cons]
    rw [h c (by simp)]
    exact ih (fun c hc => h c (by simp [hc])) _

/-- A successful optional child fold stays successful when the child
function gets pointwise stronger. -/
theorem optFoldl_mono (f g : Nat → Option Nat) (comb : Nat → Nat → Nat)
    (hfg : ∀ c w, f c = some w → g c = some w) :
    ∀ (cs : List Nat) (a v : Nat),
      cs.foldl (fun acc c => acc.bind fun a => (f c).map fun b => comb a b) (some a) = some v →
      cs.foldl (fun acc c => acc.bind fun a => (g c).map fun b => comb a b) (some a) = some v := by
  intro cs
  induction cs with
  | nil => intro a v h; exact h
  | cons c rest ih =>
    intro a v h
    simp only [List.foldl_cons] at h ⊢
    cases hfc : f c with
    | none =>
      rw [hfc] at h
      have h2 : (none : Option Nat) = some v := by
        rw [← optFoldl_none f comb rest]
        exact h
      cases h2
    | some b =>
      rw [hfc] at h
      rw [hfg c b hfc]
      exact ih (comb a b) v h

/-- Compute an optional child fold whose children values are all known. -/
theorem optFoldl_known (f : Nat → Option Nat) (comb : Nat → Nat → Nat) :
    ∀ (cs ids : List Nat), List.Forall₂ (fun c i => f c = some i) cs ids →
      ∀ a : Nat,
        cs.foldl (fun acc c => acc.bind fun a => (f c).map fun b => comb a b) (some a) =
          some (ids.foldl comb a) := by
  intro cs ids h
  induction h with
  | nil => intro a; rfl
  | @cons c i cs' ids' hci _ ih =>
    intro a
    simp only [List.foldl_cons, hci]
    simpa using ih (comb a i)

/-- `getId` depends only on shapes and is unchanged by a heap modification
that preserves all shapes below `n`, as long as children stay below their
parents there. -/
theorem getId_congr (heap heap' : List NodeType) (n : Nat)
    (hsh : ∀ i, i < n → (heap[i]?).map shapeOf = (heap'[i]?).map shapeOf)
    (hb : ∀ i nd, i < n → heap[i]? = some nd → ∀ c ∈ nodeChildren nd, c < i) :
    ∀ (fuel r : Nat), r < n → getId heap fuel r = getId heap' fuel r := by
  intro fuel
  induction fuel with
  | zero => intro r _; rfl
  | succ fuel ih =>
    intro r hr
    have hs := hsh r hr
    cases h1 : heap[r]? with
    | none =>
      rw [h1] at hs
      cases h2 : heap'[r]? with
      | none => simp only [getId, h1, h2]
      | some nd' => rw [h2] at hs; simp at hs
    | some nd =>
      rw [h1] at hs
      cases h2 : heap'[r]? with
      | none => rw [h2] at hs; simp at hs
      | some nd' =>
        rw [h2] at hs
        simp only [Option.map_some'] at hs
        have hcc : ∀ c ∈ nodeChildren nd, getId heap fuel c = getId heap' fuel c := by
          intro c hc
          exact ih c (Nat.lt_trans (hb r nd hr h1 c hc) hr)
        cases nd with
        | LeafNodeType l =>
          cases nd' <;> simp_all [shapeOf, getId, h1, h2]
        | InnerNodeType nn =>
          cases nd' with
          | LeafNodeType _ => simp [shapeOf] at hs
          | RootNodeType _ => simp [shapeOf] at hs
          | InnerNodeType nn' =>
            have hop : nn.log_operation = nn'.log_operation ∧ nn.childrens = nn'.childrens := by
              simpa [shapeOf] using hs
            obtain ⟨hop1, hop2⟩ := hop
            simp only [getId, h1, h2, ← hop1, ← hop2]
            cases nn.log_operation <;>
              exact optFoldl_congr _ _ _ _
                (fun c hc => hcc c (by simpa [nodeChildren] using hc)) _
        | RootNodeType nn =>
          cases nd' with
          | LeafNodeType _ => simp [shapeOf] at hs
          | InnerNodeType _ => simp [shapeOf] at hs
          | RootNodeType nn' =>
            have hop : nn.log_operation = nn'.log_operation ∧ nn.childrens = nn'.childrens := by
              simpa [shapeOf] using hs
            obtain ⟨hop1, hop2⟩ := hop
            simp only [getId, h1, h2, ← hop1, ← hop2]
            cases nn.log_operation <;>
              exact optFoldl_congr _ _ _ _
                (fun c hc => hcc c (by simpa [nodeChildren] using hc)) _

/-- A successful `getId` stays successful with more fuel. -/
theorem getId_mono (heap : List NodeType) :
    ∀ (fuel fuel' : Nat), fuel ≤ fuel' →
      ∀ (r v : Nat), getId heap fuel r = some v → getId heap fuel' r = some v := by
  intro fuel
  induction fuel with
  | zero => intro fuel' _ r v h; simp [getId] at h
  | succ fuel ih =>
    intro fuel' hle r v h
    cases fuel' with
    | zero => cases Nat.not_succ_le_zero _ hle
    | succ fuel'' =>
      have hle'' : fuel ≤ fuel'' := Nat.le_of_succ_le_succ hle
      cases h1 : heap[r]? with
      | none =>
        simp only [getId, h1] at h
        exact Option.noConfusion h
      | some nd =>
        simp only [getId, h1] at h ⊢
        cases nd with
        | LeafNodeType l => exact h
        | InnerNodeType nn =>
          cases hop : nn.log_operation <;> simp only [hop] at h ⊢ <;>
            exact optFoldl_mono _ _ _ (fun c w => ih fuel'' hle'' c w) _ _ _ h
        | RootNodeType nn =>
          cases hop : nn.log_operation <;> simp only [hop] at h ⊢ <;>
            exact optFoldl_mono _ _ _ (fun c w => ih fuel'' hle'' c w) _ _ _ h

/-- Looking up the key just inserted returns the new binding. -/
theorem hmLookup_insert_self (m : List (Nat × Nat)) (k v : Nat) :
    hmLookup (hmInsert m k v) k = some v := by
  induction m with
  | nil => simp [hmInsert, hmLookup]
  | cons p rest ih =>
    obtain ⟨k', v'⟩ := p
    by_cases h : k' = k
    · subst h
      simp [hmInsert, hmLookup]
    · simp [hmInsert, hmLookup, h, ih]

/-- Inserting one key leaves the other keys' bindings unchanged. -/
theorem hmLookup_insert_ne (m : List (Nat × Nat)) (k v k' : Nat) (h : k' ≠ k) :
    hmLookup (hmInsert m k v) k' = hmLookup m k' := by
  induction m with
  | nil => simp [hmInsert, hmLookup, Ne.symm h]
  | cons p rest ih =>
    obtain ⟨a, b⟩ := p
    by_cases ha : a = k
    · subst ha
      simp [hmInsert, hmLookup, Ne.symm h]
    · simp only [hmInsert, if_neg ha, hmLookup]
      by_cases hq : a = k'
      · simp [hq]
      · simp [hq, ih]

/-- An index with a stored node lies inside the arena. -/
theorem lt_of_getElem?_some {heap : List NodeType} {i : Nat} {nd : NodeType}
    (h : heap[i]? = some nd) : i < heap.length :=
  (List.getElem?_eq_some_iff.mp h).1

/-- `addParentLink` only touches the node at `c`. -/
theorem addParentLink_getElem_ne (heap : List NodeType) (c p i : Nat) (h : i ≠ c) :
    (addParentLink heap c p)[i]? = heap[i]? := by
  unfold addParentLink
  split <;> first
    | rfl
    | exact List.getElem?_set_ne (fun he => h he.symm)

/-- `addParentLink` preserves every node's shape (it only grows a parent
list). -/
theorem addParentLink_shape (heap : List NodeType) (c p i : Nat) :
    ((addParentLink heap c p)[i]?).map shapeOf = (heap[i]?).map shapeOf := by
  by_cases hic : i = c
  · subst hic
    unfold addParentLink
    split
    · rename_i l heq
      have hlt : i < heap.length := lt_of_getElem?_some heq
      rw [List.getElem?_set_self hlt, heq]
      rfl
    · rename_i n heq
      have hlt : i < heap.length := lt_of_getElem?_some heq
      rw [List.getElem?_set_self hlt, heq]
      rfl
    · rfl
    · rfl
  · rw [addParentLink_getElem_ne heap c p i hic]

/-- `addParentLink` preserves the arena length. -/
theorem addParentLink_length (heap : List NodeType) (c p : Nat) :
    (addParentLink heap c p).length = heap.length := by
  unfold addParentLink
  split <;> simp [List.length_set]

/-- `addChildLink` only touches the node at `p`. -/
theorem addChildLink_getElem_ne (heap : List NodeType) (p c i : Nat) (h : i ≠ p) :
    (addChildLink heap p c)[i]? = heap[i]? := by
  unfold addChildLink
  split <;> first
    | rfl
    | exact List.getElem?_set_ne (fun he => h he.symm)

/-- `addChildLink` preserves the arena length. -/
theorem addChildLink_length (heap : List NodeType) (p c : Nat) :
    (addChildLink heap p c).length = heap.length := by
  unfold addChildLink
  split <;> simp [List.length_set]

/-- `addChildLink` at an inner node appends the child reference. -/
theorem addChildLink_at_inner (heap : List NodeType) (p c : Nat) (n : InnerNode)
    (h : heap[p]? = some (.InnerNodeType n)) :
    (addChildLink heap p c)[p]? =
      some (.InnerNodeType { n with childrens := n.childrens ++ [c] }) := by
  have hlt : p < heap.length := lt_of_getElem?_some h
  simp [addChildLink, h, List.getElem?_set_self hlt]

/-- `addChildLink` at a root node appends the child reference. -/
theorem addChildLink_at_root (heap : List NodeType) (p c : Nat) (n : RootNode)
    (h : heap[p]? = some (.RootNodeType n)) :
    (addChildLink heap p c)[p]? =
      some (.RootNodeType { n with childrens := n.childrens ++ [c] }) := by
  have hlt : p < heap.length := lt_of_getElem?_some h
  simp [addChildLink, h, List.getElem?_set_self hlt]

/-- Wiring children preserves the arena length. -/
theorem wireChildren_length (heap : List NodeType) (p : Nat) :
    ∀ cs : List Nat, (wireChildren heap p cs).length = heap.length := by
  intro cs
  induction cs generalizing heap with
  | nil => rfl
  | cons c rest ih =>
    simp [wireChildren, ih, addChildLink_length, addParentLink_length]

/-- Wiring children preserves every shape except at the parent itself. -/
theorem wireChildren_shape_ne (p : Nat) :
    ∀ (cs : List Nat) (heap : List NodeType) (i : Nat), i ≠ p →
      ((wireChildren heap p cs)[i]?).map shapeOf = (heap[i]?).map shapeOf := by
  intro cs
  induction cs with
  | nil => intro heap i _; rfl
  | cons c rest ih =>
    intro heap i hip
    rw [wireChildren, ih _ i hip, addChildLink_getElem_ne _ _ _ _ hip, addParentLink_shape]

/-- Wiring a child list into an inner node appends exactly that list to its
children (provided the parent is not among the wired references). -/
theorem wireChildren_at_inner (p : Nat) :
    ∀ (cs : List Nat) (heap : List NodeType) (n : InnerNode),
      heap[p]? = some (.InnerNodeType n) → (∀ c ∈ cs, c ≠ p) →
      (wireChildren heap p cs)[p]? =
        some (.InnerNodeType { n with childrens := n.childrens ++ cs }) := by
  intro cs
  induction cs with
  | nil => intro heap n h _; simpa [wireChildren] using h
  | cons c rest ih =>
    intro heap n h hcs
    have h1 : (addParentLink heap c p)[p]? = some (.InnerNodeType n) := by
      rw [addParentLink_getElem_ne heap c p p (Ne.symm (hcs c (by simp)))]
      exact h
    have h2 := addChildLink_at_inner (addParentLink heap c p) p c n h1
    rw [wireChildren, ih _ _ h2 (fun c' hc' => hcs c' (by simp [hc']))]
    simp

/-- Wiring a child list into a root node appends exactly that list to its
children. -/
theorem wireChildren_at_root (p : Nat) :
    ∀ (cs : List Nat) (heap : List NodeType) (n : RootNode),
      heap[p]? = some (.RootNodeType n) → (∀ c ∈ cs, c ≠ p) →
      (wireChildren heap p cs)[p]? =
        some (.RootNodeType { n with childrens := n.childrens ++ cs }) := by
  intro cs
  induction cs with
  | nil => intro heap n h _; simpa [wireChildren] using h
  | cons c rest ih =>
    intro heap n h hcs
    have h1 : (addParentLink heap c p)[p]? = some (.RootNodeType n) := by
      rw [addParentLink_getElem_ne heap c p p (Ne.symm (hcs c (by simp)))]
      exact h
    have h2 := addChildLink_at_root (addParentLink heap c p) p c n h1
    rw [wireChildren, ih _ _ h2 (fun c' hc' => hcs c' (by simp [hc']))]
    simp

/-- Table well-formedness (the C9 invariant): every binding points into the
arena and the stored node's id recomputes to its key. -/
def tableOK (t : ATree) : Prop :=
  ∀ k r, hmLookup t.hash_to_node k = some r →
    r < t.heap.length ∧ getId t.heap t.heap.length r = some k

/-- Transport a successful `getId` along a shape-preserving, length-growing
arena evolution. -/
theorem getId_transport (heap heap' : List NodeType) (hWF : heapWF heap)
    (hle : heap.length ≤ heap'.length)
    (hsh : ∀ i, i < heap.length → (heap[i]?).map shapeOf = (heap'[i]?).map shapeOf)
    (r v : Nat) (hr : r < heap.length) (h : getId heap heap.length r = some v) :
    getId heap' heap'.length r = some v := by
  have h1 : getId heap' heap.length r = some v := by
    rw [← getId_congr heap heap' heap.length hsh (fun i nd _ hnd => hWF i nd hnd)
      heap.length r hr]
    exact h
  exact getId_mono heap' heap.length heap'.length hle r v h1

/-- Extending a well-formed arena by one node whose children point below
keeps it well-formed, when the old shapes are preserved. -/
theorem heapWF_extend (heapOld heapNew : List NodeType) (hWF : heapWF heapOld)
    (hlen : heapNew.length = heapOld.length + 1)
    (hsh : ∀ i, i < heapOld.length → ((heapOld)[i]?).map shapeOf = (heapNew[i]?).map shapeOf)
    (hnew : ∀ nd, heapNew[heapOld.length]? = some nd →
      ∀ c ∈ nodeChildren nd, c < heapOld.length) :
    heapWF heapNew := by
  intro i nd hi c hc
  by_cases hio : i < heapOld.length
  · have hs := hsh i hio
    rw [hi] at hs
    cases ho : heapOld[i]? with
    | none => rw [ho] at hs; simp at hs
    | some nd0 =>
      rw [ho] at hs
      simp only [Option.map_some', Option.some.injEq] at hs
      have hch : nodeChildren nd0 = nodeChildren nd := nodeChildren_of_shape hs
      exact hWF i nd0 ho c (by rw [hch]; exact hc)
  · rcases Nat.lt_or_ge i heapNew.length with hlt | hge
    · have hieq : i = heapOld.length := by omega
      subst hieq
      exact hnew nd hi c hc
    · rw [List.getElem?_len_le hge] at hi
      cases hi

/-- The `And` id fold over a forest, expressed over the id list of its
children. -/
theorem treeIdAnd_toList : ∀ (f : ExprForest) (a : Nat),
    treeIdAnd f a = (f.toList.map treeId).foldl (fun x y => (x + y) % U64) a
  | .nil, _ => rfl
  | .cons c rest, a => by
    simp only [ExprForest.toList, List.map_cons, List.foldl_cons, treeIdAnd]
    exact treeIdAnd_toList rest _

/-- The `Or` id fold over a forest, expressed over the id list of its
children. -/
theorem treeIdOr_toList : ∀ (f : ExprForest) (a : Nat),
    treeIdOr f a = (f.toList.map treeId).foldl (fun x y => (x * y) % U64) a
  | .nil, _ => rfl
  | .cons c rest, a => by
    simp only [ExprForest.toList, List.map_cons, List.foldl_cons, treeIdOr]
    exact treeIdOr_toList rest _

/-- Turn per-child `getId` facts into the shape `optFoldl_known` consumes. -/
theorem forall2_getId_map (heap : List NodeType) (fuel : Nat) :
    ∀ (rs : List Nat) (cts : List ExprTree),
      List.Forall₂ (fun r c => getId heap fuel r = some (treeId c)) rs cts →
      List.Forall₂ (fun c i => getId heap fuel c = some i) rs (cts.map treeId) := by
  intro rs cts h
  induction h with
  | nil => exact .nil
  | cons h1 _ ih => exact .cons h1 ih

/-- Specification of the table-registration tail of `ATree::insert`'s miss
branch: given a one-node arena extension whose new node's id computes to
`idv`, `finishInsert` succeeds, preserves both invariants, and leaves the
key `idv` bound to the new reference. -/
theorem finishInsert_spec (t₁ : ATree) (heap₂ : List NodeType) (idv : Nat)
    (hWF₁ : heapWF t₁.heap) (hTOK₁ : tableOK t₁)
    (hlen₂ : heap₂.length = t₁.heap.length + 1)
    (hsh₂ : ∀ i, i < t₁.heap.length →
      ((t₁.heap)[i]?).map shapeOf = (heap₂[i]?).map shapeOf)
    (hnew : ∀ nd, heap₂[t₁.heap.length]? = some nd →
      ∀ c ∈ nodeChildren nd, c < t₁.heap.length)
    (hid₂ : getId heap₂ heap₂.length t₁.heap.length = some idv) :
    finishInsert t₁.hash_to_node heap₂ t₁.heap.length =
      some (⟨heap₂, hmInsert t₁.hash_to_node idv t₁.heap.length⟩, t₁.heap.length) ∧
    heapWF heap₂ ∧
    tableOK ⟨heap₂, hmInsert t₁.hash_to_node idv t₁.heap.length⟩ ∧
    hmLookup (hmInsert t₁.hash_to_node idv t₁.heap.length) idv = some t₁.heap.length := by
  have hWF₂ : heapWF heap₂ := heapWF_extend t₁.heap heap₂ hWF₁ hlen₂ hsh₂ hnew
  refine ⟨?_, hWF₂, ?_, hmLookup_insert_self _ _ _⟩
  · simp [finishInsert, hid₂]
  · intro k r hk
    by_cases hkid : k = idv
    · subst hkid
      rw [hmLookup_insert_self] at hk
      cases hk
      exact ⟨show t₁.heap.length < heap₂.length by omega, hid₂⟩
    · rw [hmLookup_insert_ne _ _ _ _ hkid] at hk
      obtain ⟨hr, hgid⟩ := hTOK₁ k r hk
      exact ⟨show r < heap₂.length by omega,
        getId_transport t₁.heap heap₂ hWF₁ (by omega) hsh₂ r k hr hgid⟩

/-- Extract a bound on the left elements of a `Forall₂`. -/
theorem forall2_left {α β : Type} {P : α → Prop} {R : α → β → Prop}
    (h : ∀ a b, R a b → P a) :
    ∀ {l1 : List α} {l2 : List β}, List.Forall₂ R l1 l2 → ∀ a ∈ l1, P a := by
  intro l1 l2 hf
  induction hf with
  | nil => simp
  | cons h1 _ ih =>
    intro a ha
    rcases List.mem_cons.mp ha with rfl | ha'
    · exact h _ _ h1
    · exact ih a ha'

/-- Allocating and wiring the canonical copy of an `Inner` node: the arena
grows by one, old shapes survive, the new node carries exactly the wired
children, and its recomputed id is the id of the inserted subtree. -/
theorem newNode_inner_spec (t₁ : ATree) (op : LogOperation) (f : ExprForest) (rs : List Nat)
    (hWF₁ : heapWF t₁.heap)
    (hforall : List.Forall₂ (fun r c => r < t₁.heap.length ∧
      getId t₁.heap t₁.heap.length r = some (treeId c)) rs f.toList) :
    (wireChildren (t₁.heap ++ [.InnerNodeType ⟨op, [], [], []⟩]) t₁.heap.length rs).length =
      t₁.heap.length + 1 ∧
    (∀ i, i < t₁.heap.length → ((t₁.heap)[i]?).map shapeOf =
      ((wireChildren (t₁.heap ++ [.InnerNodeType ⟨op, [], [], []⟩]) t₁.heap.length rs)[i]?).map
        shapeOf) ∧
    (wireChildren (t₁.heap ++ [.InnerNodeType ⟨op, [], [], []⟩])
        t₁.heap.length rs)[t₁.heap.length]? = some (.InnerNodeType ⟨op, [], rs, []⟩) ∧
    getId (wireChildren (t₁.heap ++ [.InnerNodeType ⟨op, [], [], []⟩]) t₁.heap.length rs)
        (wireChildren (t₁.heap ++ [.InnerNodeType ⟨op, [], [], []⟩])
          t₁.heap.length rs).length t₁.heap.length =
      some (treeId (.inner op f)) := by
  have hbound : ∀ r ∈ rs, r < t₁.heap.length :=
    forall2_left (fun a b h => h.1) hforall
  have hlen : (wireChildren (t₁.heap ++ [.InnerNodeType ⟨op, [], [], []⟩])
      t₁.heap.length rs).length = t₁.heap.length + 1 := by
    rw [wireChildren_length]
    simp
  have hsh : ∀ i, i < t₁.heap.length → ((t₁.heap)[i]?).map shapeOf =
      ((wireChildren (t₁.heap ++ [.InnerNodeType ⟨op, [], [], []⟩])
        t₁.heap.length rs)[i]?).map shapeOf := by
    intro i hi
    rw [wireChildren_shape_ne _ _ _ _ (by omega), List.getElem?_append_left hi]
  have hat : (wireChildren (t₁.heap ++ [.InnerNodeType ⟨op, [], [], []⟩])
      t₁.heap.length rs)[t₁.heap.length]? = some (.InnerNodeType ⟨op, [], rs, []⟩) := by
    have h0 : (t₁.heap ++ [NodeType.InnerNodeType ⟨op, [], [], []⟩])[t₁.heap.length]? =
        some (.InnerNodeType ⟨op, [], [], []⟩) := List.getElem?_concat_length _ _
    have := wireChildren_at_inner t₁.heap.length rs _ _ h0
      (fun c hc => by have := hbound c hc; omega)
    simpa using this
  refine ⟨hlen, hsh, hat, ?_⟩
  have hchild : List.Forall₂ (fun r c =>
      getId (wireChildren (t₁.heap ++ [.InnerNodeType ⟨op, [], [], []⟩]) t₁.heap.length rs)
        t₁.heap.length r = some (treeId c)) rs f.toList := by
    refine hforall.imp ?_
    intro r c ⟨hr, hid⟩
    rw [← getId_congr t₁.heap _ t₁.heap.length hsh (fun i nd _ hnd => hWF₁ i nd hnd)
      t₁.heap.length r hr]
    exact hid
  rw [hlen]
  simp only [getId, hat]
  cases op with
  | And =>
    rw [optFoldl_known _ _ rs (f.toList.map treeId) (forall2_getId_map _ _ _ _ hchild) 0]
    simp only [treeId, treeIdAnd_toList]
  | Or =>
    rw [optFoldl_known _ _ rs (f.toList.map treeId) (forall2_getId_map _ _ _ _ hchild) 1]
    simp only [treeId, treeIdOr_toList]

/-- Allocating and wiring the canonical copy of a `Root` node (same as
`newNode_inner_spec` for the root variant). -/
theorem newNode_root_spec (t₁ : ATree) (op : LogOperation) (f : ExprForest) (rs : List Nat)
    (hWF₁ : heapWF t₁.heap)
    (hforall : List.Forall₂ (fun r c => r < t₁.heap.length ∧
      getId t₁.heap t₁.heap.length r = some (treeId c)) rs f.toList) :
    (wireChildren (t₁.heap ++ [.RootNodeType ⟨[], op, []⟩]) t₁.heap.length rs).length =
      t₁.heap.length + 1 ∧
    (∀ i, i < t₁.heap.length → ((t₁.heap)[i]?).map shapeOf =
      ((wireChildren (t₁.heap ++ [.RootNodeType ⟨[], op, []⟩]) t₁.heap.length rs)[i]?).map
        shapeOf) ∧
    (wireChildren (t₁.heap ++ [.RootNodeType ⟨[], op, []⟩])
        t₁.heap.length rs)[t₁.heap.length]? = some (.RootNodeType ⟨rs, op, []⟩) ∧
    getId (wireChildren (t₁.heap ++ [.RootNodeType ⟨[], op, []⟩]) t₁.heap.length rs)
        (wireChildren (t₁.heap ++ [.RootNodeType ⟨[], op, []⟩])
          t₁.heap.length rs).length t₁.heap.length =
      some (treeId (.root op f)) := by
  have hbound : ∀ r ∈ rs, r < t₁.heap.length :=
    forall2_left (fun a b h => h.1) hforall
  have hlen : (wireChildren (t₁.heap ++ [.RootNodeType ⟨[], op, []⟩])
      t₁.heap.length rs).length = t₁.heap.length + 1 := by
    rw [wireChildren_length]
    simp
  have hsh : ∀ i, i < t₁.heap.length → ((t₁.heap)[i]?).map shapeOf =
      ((wireChildren (t₁.heap ++ [.RootNodeType ⟨[], op, []⟩])
        t₁.heap.length rs)[i]?).map shapeOf := by
    intro i hi
    rw [wireChildren_shape_ne _ _ _ _ (by omega), List.getElem?_append_left hi]
  have hat : (wireChildren (t₁.heap ++ [.RootNodeType ⟨[], op, []⟩])
      t₁.heap.length rs)[t₁.heap.length]? = some (.RootNodeType ⟨rs, op, []⟩) := by
    have h0 : (t₁.heap ++ [NodeType.RootNodeType ⟨[], op, []⟩])[t₁.heap.length]? =
        some (.RootNodeType ⟨[], op, []⟩) := List.getElem?_concat_length _ _
    have := wireChildren_at_root t₁.heap.length rs _ _ h0
      (fun c hc => by have := hbound c hc; omega)
    simpa using this
  refine ⟨hlen, hsh, hat, ?_⟩
  have hchild : List.Forall₂ (fun r c =>
      getId (wireChildren (t₁.heap ++ [.RootNodeType ⟨[], op, []⟩]) t₁.heap.length rs)
        t₁.heap.length r = some (treeId c)) rs f.toList := by
    refine hforall.imp ?_
    intro r c ⟨hr, hid⟩
    rw [← getId_congr t₁.heap _ t₁.heap.length hsh (fun i nd _ hnd => hWF₁ i nd hnd)
      t₁.heap.length r hr]
    exact hid
  rw [hlen]
  simp only [getId, hat]
  cases op with
  | And =>
    rw [optFoldl_known _ _ rs (f.toList.map treeId) (forall2_getId_map _ _ _ _ hchild) 0]
    simp only [treeId, treeIdAnd_toList]
  | Or =>
    rw [optFoldl_known _ _ rs (f.toList.map treeId) (forall2_getId_map _ _ _ _ hchild) 1]
    simp only [treeId, treeIdOr_toList]

/-!
The main insertion invariant, proved by mutual structural induction on the
inserted subtree: on a well-formed state, `insert` succeeds, preserves both
invariants, grows the arena monotonically while preserving old shapes, and
leaves the table binding `treeId x` to the returned canonical reference —
whose recomputed id is `treeId x`.
-/
mutual
theorem insertTree_spec : ∀ (x : ExprTree) (t : ATree), heapWF t.heap → tableOK t →
    ∃ t' r, insertTree t x = some (t', r) ∧
      heapWF t'.heap ∧ tableOK t' ∧
      t.heap.length ≤ t'.heap.length ∧
      (∀ i, i < t.heap.length → ((t.heap)[i]?).map shapeOf = ((t'.heap)[i]?).map shapeOf) ∧
      r < t'.heap.length ∧
      getId t'.heap t'.heap.length r = some (treeId x) ∧
      hmLookup t'.hash_to_node (treeId x) = some r
  | .leaf pid => by
    intro t hWF hTOK
    cases hl : hmLookup t.hash_to_node (treeId (.leaf pid)) with
    | some r =>
      obtain ⟨hr, hgid⟩ := hTOK _ r hl
      exact ⟨t, r, by simp [insertTree, hl], hWF, hTOK, Nat.le_refl _, fun i _ => rfl,
        hr, hgid, hl⟩
    | none =>
      have hlen₂ : (t.heap ++ [NodeType.LeafNodeType ⟨pid, [], none⟩]).length =
          t.heap.length + 1 := by simp
      have hsh₂ : ∀ i, i < t.heap.length → ((t.heap)[i]?).map shapeOf =
          ((t.heap ++ [NodeType.LeafNodeType ⟨pid, [], none⟩])[i]?).map shapeOf := by
        intro i hi
        rw [List.getElem?_append_left hi]
      have hat : (t.heap ++ [NodeType.LeafNodeType ⟨pid, [], none⟩])[t.heap.length]? =
          some (.LeafNodeType ⟨pid, [], none⟩) := List.getElem?_concat_length _ _
      have hid₂ : getId (t.heap ++ [NodeType.LeafNodeType ⟨pid, [], none⟩])
          (t.heap ++ [NodeType.LeafNodeType ⟨pid, [], none⟩]).length t.heap.length =
          some pid := by
        rw [hlen₂]
        simp only [getId, hat]
      have hnew : ∀ nd, (t.heap ++ [NodeType.LeafNodeType ⟨pid, [], none⟩])[t.heap.length]? =
          some nd → ∀ c ∈ nodeChildren nd, c < t.heap.length := by
        intro nd h
        rw [hat] at h
        cases h
        simp [nodeChildren]
      obtain ⟨hfin, hWF₂, hTOK₂, hlook⟩ :=
        finishInsert_spec t _ pid hWF hTOK hlen₂ hsh₂ hnew hid₂
      refine ⟨_, _, ?_, hWF₂, hTOK₂, by simp, hsh₂, ?_, hid₂, hlook⟩
      · simp only [insertTree, hl, createNewNode]
        exact hfin
      · simp only [hlen₂]
        simp
  | .inner op f => by
    intro t hWF hTOK
    cases hl : hmLookup t.hash_to_node (treeId (.inner op f)) with
    | some r =>
      obtain ⟨hr, hgid⟩ := hTOK _ r hl
      exact ⟨t, r, by simp [insertTree, hl], hWF, hTOK, Nat.le_refl _, fun i _ => rfl,
        hr, hgid, hl⟩
    | none =>
      obtain ⟨t₁, rs, hf, hWF₁, hTOK₁, hle₁, hsh₁, hforall⟩ := insertForest_spec f t hWF hTOK
      obtain ⟨hlen₂, hsh₂, hat₂, hid₂⟩ := newNode_inner_spec t₁ op f rs hWF₁ hforall
      have hnew : ∀ nd, (wireChildren (t₁.heap ++ [.InnerNodeType ⟨op, [], [], []⟩])
          t₁.heap.length rs)[t₁.heap.length]? = some nd →
          ∀ c ∈ nodeChildren nd, c < t₁.heap.length := by
        intro nd h c hc
        rw [hat₂] at h
        cases h
        exact forall2_left (fun a b hx => hx.1) hforall c (by simpa [nodeChildren] using hc)
      obtain ⟨hfin, hWF₂, hTOK₂, hlook⟩ :=
        finishInsert_spec t₁ _ (treeId (.inner op f)) hWF₁ hTOK₁ hlen₂ hsh₂ hnew hid₂
      refine ⟨_, _, ?_, hWF₂, hTOK₂, ?_, ?_, ?_, hid₂, hlook⟩
      · simp only [insertTree, hl, hf, createNewNode]
        exact hfin
      · simp only [hlen₂]
        omega
      · intro i hi
        exact (hsh₁ i hi).trans (hsh₂ i (Nat.lt_of_lt_of_le hi hle₁))
      · simp only [hlen₂]
        omega
  | .root op f => by
    intro t hWF hTOK
    cases hl : hmLookup t.hash_to_node (treeId (.root op f)) with
    | some r =>
      obtain ⟨hr, hgid⟩ := hTOK _ r hl
      exact ⟨t, r, by simp [insertTree, hl], hWF, hTOK, Nat.le_refl _, fun i _ => rfl,
        hr, hgid, hl⟩
    | none =>
      obtain ⟨t₁, rs, hf, hWF₁, hTOK₁, hle₁, hsh₁, hforall⟩ := insertForest_spec f t hWF hTOK
      obtain ⟨hlen₂, hsh₂, hat₂, hid₂⟩ := newNode_root_spec t₁ op f rs hWF₁ hforall
      have hnew : ∀ nd, (wireChildren (t₁.heap ++ [.RootNodeType ⟨[], op, []⟩])
          t₁.heap.length rs)[t₁.heap.length]? = some nd →
          ∀ c ∈ nodeChildren nd, c < t₁.heap.length := by
        intro nd h c hc
        rw [hat₂] at h
        cases h
        exact forall2_left (fun a b hx => hx.1) hforall c (by simpa [nodeChildren] using hc)
      obtain ⟨hfin, hWF₂, hTOK₂, hlook⟩ :=
        finishInsert_spec t₁ _ (treeId (.root op f)) hWF₁ hTOK₁ hlen₂ hsh₂ hnew hid₂
      refine ⟨_, _, ?_, hWF₂, hTOK₂, ?_, ?_, ?_, hid₂, hlook⟩
      · simp only [insertTree, hl, hf, createNewNode]
        exact hfin
      · simp only [hlen₂]
        omega
      · intro i hi
        exact (hsh₁ i hi).trans (hsh₂ i (Nat.lt_of_lt_of_le hi hle₁))
      · simp only [hlen₂]
        omega
theorem insertForest_spec : ∀ (f : ExprForest) (t : ATree), heapWF t.heap → tableOK t →
    ∃ t' rs, insertForest t f = some (t', rs) ∧
      heapWF t'.heap ∧ tableOK t' ∧
      t.heap.length ≤ t'.heap.length ∧
      (∀ i, i < t.heap.length → ((t.heap)[i]?).map shapeOf = ((t'.heap)[i]?).map shapeOf) ∧
      List.Forall₂ (fun r c => r < t'.heap.length ∧
        getId t'.heap t'.heap.length r = some (treeId c)) rs f.toList
  | .nil => by
    intro t hWF hTOK
    exact ⟨t, [], rfl, hWF, hTOK, Nat.le_refl _, fun i _ => rfl, List.Forall₂.nil⟩
  | .cons c rest => by
    intro t hWF hTOK
    obtain ⟨t₁, r, hc, hWF₁, hTOK₁, hle₁, hsh₁, hrlt, hgid, hlook⟩ :=
      insertTree_spec c t hWF hTOK
    obtain ⟨t₂, rs, hrest, hWF₂, hTOK₂, hle₂, hsh₂, hforall⟩ :=
      insertForest_spec rest t₁ hWF₁ hTOK₁
    refine ⟨t₂, r :: rs, ?_, hWF₂, hTOK₂, hle₁.trans hle₂, ?_, ?_⟩
    · simp only [insertForest, hc, hrest]
    · intro i hi
      exact (hsh₁ i hi).trans (hsh₂ i (Nat.lt_of_lt_of_le hi hle₁))
    · exact List.Forall₂.cons
        ⟨Nat.lt_of_lt_of_le hrlt hle₂,
         getId_transport t₁.heap t₂.heap hWF₁ hle₂ hsh₂ r _ hrlt hgid⟩ hforall
end

/-- ATree states reachable from `ATree::new()` by successful `insert`
calls — every state a caller can hold, the struct's field being private. -/
inductive ATree.Built : ATree → Prop where
  | new : ATree.Built ATree.new
  | insert {t : ATree} {x : ExprTree} {t' : ATree} {r : Nat} :
      ATree.Built t → insertTree t x = some (t', r) → ATree.Built t'

/-- Both insertion invariants hold on every reachable ATree. -/
theorem built_invariant {t : ATree} (h : t.Built) : heapWF t.heap ∧ tableOK t := by
  induction h with
  | new =>
    constructor
    · intro i nd hi
      simp [ATree.new] at hi
    · intro k r hk
      simp [ATree.new, hmLookup] at hk
  | insert hb hins ih =>
    rename_i t x t' r
    obtain ⟨hWF, hTOK⟩ := ih
    obtain ⟨t'', r'', heq, hWF', hTOK', -⟩ := insertTree_spec x t hWF hTOK
    rw [hins] at heq
    have h2 : t' = t'' ∧ r = r'' := by simpa using heq
    obtain ⟨h3, -⟩ := h2
    subst h3
    exact ⟨hWF', hTOK'⟩

/-- C9: in every ATree reachable from `new()` by any sequence of `insert`
calls, every key of `hash_to_node` maps to a node whose recomputed
`get_id()` equals that key; since the property holds in every reachable
state, every insert preserves it, replacements under an existing key
included. -/
theorem c9_table_key_is_node_id :
    ∀ (t : ATree), t.Built → ∀ k r, hmLookup t.hash_to_node k = some r →
      getId t.heap t.heap.length r = some k := by
  intro t hb k r hk
  exact ((built_invariant hb).2 k r hk).2

/-- C9 witness: in the tree holding one leaf, key 5 resolves to node 0
whose id recomputes to 5. -/
theorem c9_table_key_is_node_id_witness :
    leafOnlyATree.Built ∧
    getId leafOnlyATree.heap leafOnlyATree.heap.length 0 = some 5 := by
  have hb : leafOnlyATree.Built :=
    ATree.Built.insert ATree.Built.new
      (show insertTree ATree.new (.leaf 5) = some (leafOnlyATree, 0) by decide)
  exact ⟨hb, c9_table_key_is_node_id leafOnlyATree hb 5 0 (by decide)⟩

/-- C5: on any reachable ATree, inserting the same subtree twice leaves the
state (hence `len()`) unchanged by the second call, and the second call
returns the same canonical handle as the first. -/
theorem c5_insert_idempotent :
    ∀ (t : ATree) (x : ExprTree) (t₁ : ATree) (r : Nat), t.Built →
      insertTree t x = some (t₁, r) →
      insertTree t₁ x = some (t₁, r) ∧
      (insertTree t₁ x).map (fun p => p.1.len) = some t₁.len := by
  intro t x t₁ r hb hins
  obtain ⟨hWF, hTOK⟩ := built_invariant hb
  obtain ⟨t'', r'', heq, -, -, -, -, -, -, hlook⟩ := insertTree_spec x t hWF hTOK
  rw [hins] at heq
  have h2 : t₁ = t'' ∧ r = r'' := by simpa using heq
  obtain ⟨h3, h4⟩ := h2
  subst h3
  subst h4
  have hsecond : insertTree t₁ x = some (t₁, r) := by
    cases x <;> simp [insertTree, hlook]
  exact ⟨hsecond, by rw [hsecond]; rfl⟩

/-- C5 witness: reinserting `Leaf(5)` into the single-leaf tree returns the
same handle 0 and leaves the state unchanged. -/
theorem c5_insert_idempotent_witness :
    insertTree leafOnlyATree (.leaf 5) = some (leafOnlyATree, 0) :=
  (c5_insert_idempotent ATree.new (.leaf 5) leafOnlyATree 0 ATree.Built.new (by decide)).1
